import Mathlib

/-!
Verification development for the MicroTBX Windows port of the critical-section
primitive (`source/port/WINDOWS/tbxport.c`).

The port exposes two operations:

* `TbxPortInterruptsDisable` ("Enter"): lazily constructs a Windows
  `CRITICAL_SECTION` on first use (guarded by the module-static flag
  `criticalSectionInitialized`), enters the critical section, and returns the
  constant saved-state token `0`.
* `TbxPortInterruptsRestore` ("Leave"): ignores its token argument
  (`TBX_UNUSED_ARG`), asserts `criticalSectionInitialized == TBX_TRUE`
  (`TBX_ASSERT`), and leaves the critical section.

Two models are developed:

1. A sequential, single-logical-context model (`PortState`,
   `TbxPortInterruptsDisable`, `TbxPortInterruptsRestore`, `exec`): each C call
   is one state transformation.  The Windows `CRITICAL_SECTION`, restricted to
   one context, is a recursive lock, i.e. a recursion counter that
   `EnterCriticalSection` increments and `LeaveCriticalSection` decrements.
2. A fine-grained interleaving model (`CState`, `CStep`) in which several
   logical contexts each run the loop
   `Enter; read counter; write counter+1; Leave`, with every shared-memory
   access of the C code (the `criticalSectionInitialized` flag check,
   `InitializeCriticalSection`, the flag store, `EnterCriticalSection`,
   the unprotected counter read and write, `LeaveCriticalSection`) as a
   separate atomic step.
-/

namespace MicroTbx

/-! ## Sequential single-context model -/

/-- The module-static state of `tbxport.c` together with the state of the
Windows `CRITICAL_SECTION` object as seen by a single logical context.

* `criticalSectionInitialized` embeds the static flag of the same name
  (`TBX_FALSE`/`TBX_TRUE` become `false`/`true`).
* `csConstructed` records whether `InitializeCriticalSection` has ever run,
  i.e. whether the backing object exists.
* `csLockCount` is the recursion count of the critical section for the single
  context: `EnterCriticalSection` is recursive, so repeated acquisition by the
  owner increments the count and never blocks.
* `csInitCalls` counts invocations of `InitializeCriticalSection`
  (instrumentation used to state the one-time-construction property). -/
structure PortState where
  criticalSectionInitialized : Bool
  csConstructed : Bool
  csLockCount : Nat
  csInitCalls : Nat
deriving DecidableEq

/-- Process start: flag `TBX_FALSE`, backing object not constructed. -/
def initialPortState : PortState :=
  { criticalSectionInitialized := false
    csConstructed := false
    csLockCount := 0
    csInitCalls := 0 }

/-- `InitializeCriticalSection`: constructs (or re-constructs) the backing
object in the unlocked state. -/
def initializeCriticalSection (s : PortState) : PortState :=
  { s with csConstructed := true, csLockCount := 0,
           csInitCalls := s.csInitCalls + 1 }

/-- `EnterCriticalSection`, single-context view: recursive acquisition, always
succeeds for the (only) context and increments the recursion count. -/
def enterCriticalSection (s : PortState) : PortState :=
  { s with csLockCount := s.csLockCount + 1 }

/-- `LeaveCriticalSection`, single-context view: releases one level of
acquisition. -/
def leaveCriticalSection (s : PortState) : PortState :=
  { s with csLockCount := s.csLockCount - 1 }

/-- `TbxPortInterruptsDisable` from `tbxport.c`: sets `result = 0`; if the
flag is `TBX_FALSE`, calls `InitializeCriticalSection` and sets the flag to
`TBX_TRUE`; calls `EnterCriticalSection`; returns `result`.  The returned
`Nat` embeds the `tTbxPortCpuSR` saved-state token. -/
def TbxPortInterruptsDisable (s : PortState) : PortState × Nat :=
  let result : Nat := 0
  let s1 : PortState :=
    if s.criticalSectionInitialized = false then
      { initializeCriticalSection s with criticalSectionInitialized := true }
    else
      s
  (enterCriticalSection s1, result)

/-- `TbxPortInterruptsRestore` from `tbxport.c`: the token parameter is unused
(`TBX_UNUSED_ARG`); `TBX_ASSERT(criticalSectionInitialized == TBX_TRUE)`; then
`LeaveCriticalSection`.

Modelled from the spec: the `TBX_ASSERT` facility itself (`tbx_assert.h`) is
not among the sources, only its call site is; the spec describes it as an
assertion-style fatal check that never returns control on violation, so a
failed assertion is modelled as the `none` outcome and a passed assertion as
`some` of the continuation. -/
def TbxPortInterruptsRestore (prevCpuSr : Nat) (s : PortState) : Option PortState :=
  if s.criticalSectionInitialized = true then
    some (leaveCriticalSection s)
  else
    none

/-- A call made by the single context: `Enter`, or `Leave` with a token. -/
inductive Call where
  | enter : Call
  | leave : Nat → Call
deriving DecidableEq

/-- One call as a state transformation; `none` means the fatal assertion
fired. -/
def stepCall (s : PortState) : Call → Option PortState
  | .enter => some (TbxPortInterruptsDisable s).1
  | .leave t => TbxPortInterruptsRestore t s

/-- Executes a sequential trace of calls; once an assertion fires, execution
does not continue. -/
def exec (s : PortState) : List Call → Option PortState
  | [] => some s
  | c :: rest =>
      match stepCall s c with
      | some s1 => exec s1 rest
      | none => none

/-! Basic helper lemmas about the sequential model. -/

/-- `Enter` on an already-initialized state only bumps the lock count. -/
lemma disable_of_init (s : PortState) (h : s.criticalSectionInitialized = true) :
    TbxPortInterruptsDisable s = ({ s with csLockCount := s.csLockCount + 1 }, 0) := by
  simp [TbxPortInterruptsDisable, enterCriticalSection, h]

/-- `Enter` on an uninitialized state constructs the object, sets the flag and
acquires once. -/
lemma disable_of_uninit (s : PortState) (h : s.criticalSectionInitialized = false) :
    TbxPortInterruptsDisable s =
      ({ criticalSectionInitialized := true, csConstructed := true,
         csLockCount := 1, csInitCalls := s.csInitCalls + 1 }, 0) := by
  simp [TbxPortInterruptsDisable, enterCriticalSection, initializeCriticalSection, h]

/-- After `Enter`, the flag is always `true`. -/
lemma disable_flag (s : PortState) :
    (TbxPortInterruptsDisable s).1.criticalSectionInitialized = true := by
  by_cases h : s.criticalSectionInitialized = true
  · rw [disable_of_init s h]
    exact h
  · rw [disable_of_uninit s (by simpa using h)]

/-- Once the flag is `true` and the object constructed, every successful
sequential execution preserves the flag, the constructedness, and the number
of `InitializeCriticalSection` calls. -/
lemma exec_preserves (tr : List Call) (s s1 : PortState)
    (hf : s.criticalSectionInitialized = true)
    (h : exec s tr = some s1) :
    s1.criticalSectionInitialized = true ∧
      s1.csConstructed = s.csConstructed ∧ s1.csInitCalls = s.csInitCalls := by
  induction tr generalizing s with
  | nil =>
      simp [exec] at h
      subst h
      exact ⟨hf, rfl, rfl⟩
  | cons c rest ih =>
      cases c with
      | enter =>
          simp only [exec, stepCall, disable_of_init s hf] at h
          exact ih { s with csLockCount := s.csLockCount + 1 } hf h
      | leave t =>
          rw [exec, stepCall, TbxPortInterruptsRestore] at h
          simp [hf] at h
          exact ih (leaveCriticalSection s) hf h

/-- An enter-free successful execution from an uninitialized state goes
nowhere: the first `Leave` would trip the assertion, so the trace is empty. -/
lemma exec_no_enter (tr : List Call) (s s1 : PortState)
    (hf : s.criticalSectionInitialized = false)
    (hm : Call.enter ∉ tr)
    (h : exec s tr = some s1) : s1 = s := by
  cases tr with
  | nil => simpa [exec] using h.symm
  | cons c rest =>
      cases c with
      | enter => simp at hm
      | leave t =>
          rw [exec, stepCall, TbxPortInterruptsRestore] at h
          simp [hf] at h

/-- If a successful execution from process start contains an `Enter`, the
final state has the flag set. -/
lemma exec_enter_flag (tr : List Call) (s1 : PortState)
    (hm : Call.enter ∈ tr)
    (h : exec initialPortState tr = some s1) :
    s1.criticalSectionInitialized = true := by
  induction tr with
  | nil => simp at hm
  | cons c rest ih =>
      cases c with
      | enter =>
          rw [exec, stepCall,
              disable_of_uninit initialPortState rfl] at h
          exact (exec_preserves rest _ s1 rfl h).1
      | leave t =>
          rw [exec, stepCall, TbxPortInterruptsRestore] at h
          simp [initialPortState] at h

/-! ## Nesting: `N` consecutive Enters followed by `N` Leaves -/

/-- `enterN s n` performs `n` consecutive `TbxPortInterruptsDisable` calls
(discarding the constant tokens). -/
def enterN : PortState → Nat → PortState
  | s, 0 => s
  | s, n + 1 => enterN (TbxPortInterruptsDisable s).1 n

/-- `leaveN s n` performs `n` consecutive `TbxPortInterruptsRestore` calls
with the token `0` that Enter returned; `none` once an assertion fires. -/
def leaveN : PortState → Nat → Option PortState
  | s, 0 => some s
  | s, n + 1 =>
      match TbxPortInterruptsRestore 0 s with
      | some s1 => leaveN s1 n
      | none => none

/-- Repeated Enter on an initialized state adds `n` to the lock count. -/
lemma enterN_of_init (n : Nat) (s : PortState)
    (hf : s.criticalSectionInitialized = true) :
    enterN s n = { s with csLockCount := s.csLockCount + n } := by
  induction n generalizing s with
  | zero => simp [enterN]
  | succ m ih =>
      rw [enterN, disable_of_init s hf]
      rw [ih { s with csLockCount := s.csLockCount + 1 } hf]
      simp [Nat.add_assoc, Nat.add_comm 1 m]

/-- Repeated Leave on an initialized state subtracts `n` from the lock count
and never trips the assertion. -/
lemma leaveN_of_init (n : Nat) (s : PortState)
    (hf : s.criticalSectionInitialized = true) :
    leaveN s n = some { s with csLockCount := s.csLockCount - n } := by
  induction n generalizing s with
  | zero => simp [leaveN]
  | succ m ih =>
      have h1 : TbxPortInterruptsRestore 0 s = some (leaveCriticalSection s) := by
        simp [TbxPortInterruptsRestore, hf]
      simp only [leaveN, h1]
      rw [ih (leaveCriticalSection s) hf]
      simp [leaveCriticalSection, Nat.sub_sub, Nat.add_comm 1 m]

/-! ## Fine-grained interleaving model

Several logical contexts (threads) each run the benchmark loop of the spec:
`m` iterations of `Enter; v := counter; counter := v + 1; Leave`, the
increment deliberately unprotected by anything but the Enter/Leave pair.
Every shared-memory access performed by the C code is a separate atomic
step: the `criticalSectionInitialized` flag check of
`TbxPortInterruptsDisable`, the `InitializeCriticalSection` call, the flag
store, the (blocking) `EnterCriticalSection` call, the caller's counter read
and counter write, and the assert-plus-`LeaveCriticalSection` of
`TbxPortInterruptsRestore`. -/

/-- Control point of one context inside its current loop iteration. -/
inductive Phase where
  | ready
  | initing
  | flagging
  | acquiring
  | reading
  | writing (v : Nat)
  | leaving
deriving DecidableEq

/-- Whether a control point lies strictly between a completed Enter and its
matching Leave, i.e. inside the protected section. -/
def Phase.inSection : Phase → Bool
  | .reading => true
  | .writing _ => true
  | .leaving => true
  | _ => false

/-- The Windows `CRITICAL_SECTION` object: owning context (if any) and
recursion count; free means `owner = none`, `recur = 0`.
`EnterCriticalSection` blocks unless the section is free or already owned by
the caller; `InitializeCriticalSection` (re)constructs it in the free
state. -/
structure CCS (n : Nat) where
  owner : Option (Fin n)
  recur : Nat
deriving DecidableEq

/-- Shared state of the interleaved execution for `n` contexts: the static
flag of `tbxport.c`, the backing critical section (`none` until first
constructed), the shared benchmark counter, and each context's remaining
iterations and control point. -/
structure CState (n : Nat) where
  flag : Bool
  cs : Option (CCS n)
  counter : Nat
  iters : Fin n → Nat
  phase : Fin n → Phase
deriving DecidableEq

/-- Context `t` is inside the protected section. -/
def inSec {n : Nat} (s : CState n) (t : Fin n) : Prop :=
  (s.phase t).inSection = true

instance {n : Nat} (s : CState n) (t : Fin n) : Decidable (inSec s t) := by
  unfold inSec
  infer_instance

/-- One atomic step of the interleaved execution, by some context `t`.
The constructors mirror `tbxport.c` line by line:

* `checkFlag`: `if (criticalSectionInitialized == TBX_FALSE)` — a single
  racy read of the flag deciding whether to take the construction branch;
* `doInit`: `InitializeCriticalSection(...)` — (re)constructs the backing
  object in the free state (Windows gives no protection against concurrent
  or repeated construction; re-initializing resets the object);
* `setFlag`: `criticalSectionInitialized = TBX_TRUE`;
* `acquire`: `EnterCriticalSection(...)` — enabled only when the section is
  free or already owned by `t` (otherwise the context blocks);
* `readCtr` / `writeCtr`: the caller's unprotected `counter` increment,
  split into its load and store;
* `doLeave`: `TbxPortInterruptsRestore` — the assertion requires the flag
  (a context with the flag false would halt fatally instead of stepping),
  then `LeaveCriticalSection` releases one recursion level, freeing the
  section at level zero. -/
inductive CStep (n : Nat) : CState n → CState n → Prop where
  | checkFlag (s : CState n) (t : Fin n)
      (hp : s.phase t = .ready) (hi : 0 < s.iters t) :
      CStep n s { s with
        phase := Function.update s.phase t (if s.flag then .acquiring else .initing) }
  | doInit (s : CState n) (t : Fin n) (hp : s.phase t = .initing) :
      CStep n s { s with
        cs := some (CCS.mk none 0)
        phase := Function.update s.phase t .flagging }
  | setFlag (s : CState n) (t : Fin n) (hp : s.phase t = .flagging) :
      CStep n s { s with
        flag := true
        phase := Function.update s.phase t .acquiring }
  | acquire (s : CState n) (t : Fin n) (c : CCS n)
      (hp : s.phase t = .acquiring) (hc : s.cs = some c)
      (ho : c.owner = none ∨ c.owner = some t) :
      CStep n s { s with
        cs := some (CCS.mk (some t) (c.recur + 1))
        phase := Function.update s.phase t .reading }
  | readCtr (s : CState n) (t : Fin n) (hp : s.phase t = .reading) :
      CStep n s { s with phase := Function.update s.phase t (.writing s.counter) }
  | writeCtr (s : CState n) (t : Fin n) (v : Nat) (hp : s.phase t = .writing v) :
      CStep n s { s with
        counter := v + 1
        phase := Function.update s.phase t .leaving }
  | doLeave (s : CState n) (t : Fin n) (c : CCS n)
      (hp : s.phase t = .leaving) (hf : s.flag = true) (hc : s.cs = some c) :
      CStep n s { s with
        cs := some (if c.recur ≤ 1 then CCS.mk none 0 else CCS.mk c.owner (c.recur - 1))
        phase := Function.update s.phase t .ready
        iters := Function.update s.iters t (s.iters t - 1) }

/-- Reachability under interleaved execution. -/
abbrev CReach (n : Nat) : CState n → CState n → Prop :=
  Relation.ReflTransGen (CStep n)

/-- Process start: flag false, backing object not constructed, counter zero,
`m` iterations per context. -/
def startCState (n m : Nat) : CState n :=
  { flag := false
    cs := none
    counter := 0
    iters := fun _ => m
    phase := fun _ => .ready }

/-- State after the one-time initialization has already completed (for
example because a first Enter/Leave pair ran before the contexts were
started): flag true, backing object constructed and free, counter zero. -/
def initedCState (n m : Nat) : CState n :=
  { flag := true
    cs := some (CCS.mk none 0)
    counter := 0
    iters := fun _ => m
    phase := fun _ => .ready }

/-- Work already contributed to the counter by a context with `it` remaining
iterations at control point `p` (out of `m` total iterations). -/
def wcount (m it : Nat) (p : Phase) : Nat :=
  (m - it) + (if p = .leaving then 1 else 0)

/-- Inductive invariant of the interleaved execution from `initedCState`. -/
structure CInv (n m : Nat) (s : CState n) : Prop where
  flag : s.flag = true
  cs_ex : ∃ c, s.cs = some c
  no_boot : ∀ t, s.phase t ≠ .initing ∧ s.phase t ≠ .flagging
  owner_excl : ∀ c, s.cs = some c → ∀ t, c.owner = some t →
      c.recur = 1 ∧ inSec s t ∧ ∀ u, u ≠ t → ¬ inSec s u
  free_none : ∀ c, s.cs = some c → c.owner = none →
      c.recur = 0 ∧ ∀ t, ¬ inSec s t
  iters_le : ∀ t, s.iters t ≤ m
  iters_pos : ∀ t, s.phase t ≠ .ready → 1 ≤ s.iters t
  write_val : ∀ t v, s.phase t = .writing v → v = s.counter
  ctr : s.counter = ∑ t, wcount m (s.iters t) (s.phase t)

/-- A context inside the section is the owner of the critical section. -/
lemma owner_of_inSec {n m : Nat} {s : CState n} (hInv : CInv n m s)
    {c : CCS n} (hc : s.cs = some c) {t : Fin n} (ht : inSec s t) :
    c.owner = some t := by
  cases ho : c.owner with
  | none => exact absurd ht ((hInv.free_none c hc ho).2 t)
  | some u =>
      by_cases h : t = u
      · rw [h]
      · exact absurd ht ((hInv.owner_excl c hc u ho).2.2 t h)

/-- Swapping one point of a sum against its updated value. -/
lemma sum_update_comm {n : Nat} (f : Fin n → Nat) (t : Fin n) (b : Nat) :
    f t + ∑ u, Function.update f t b u = b + ∑ u, f u := by
  rw [Finset.sum_update_of_mem (Finset.mem_univ t) f b]
  rw [← Finset.add_sum_erase _ f (Finset.mem_univ t), Finset.erase_eq]
  ring

/-- Effect on the work sum of changing one context's control point. -/
lemma sum_wcount_step {n : Nat} (m : Nat) (it : Fin n → Nat) (ph : Fin n → Phase)
    (t : Fin n) (p : Phase) :
    wcount m (it t) (ph t) + ∑ u, wcount m (it u) (Function.update ph t p u)
      = wcount m (it t) p + ∑ u, wcount m (it u) (ph u) := by
  have hpt : ∀ u, wcount m (it u) (Function.update ph t p u)
      = Function.update (fun w => wcount m (it w) (ph w)) t (wcount m (it t) p) u := by
    intro u
    by_cases h : u = t
    · subst h
      rw [Function.update_same, Function.update_same]
    · rw [Function.update_noteq h, Function.update_noteq h]
  rw [Finset.sum_congr rfl (fun u _ => hpt u)]
  exact sum_update_comm (fun w => wcount m (it w) (ph w)) t (wcount m (it t) p)

/-- Effect on the work sum of changing one context's control point and
iteration count together. -/
lemma sum_wcount_step2 {n : Nat} (m : Nat) (it : Fin n → Nat) (ph : Fin n → Phase)
    (t : Fin n) (b : Nat) (p : Phase) :
    wcount m (it t) (ph t)
        + ∑ u, wcount m (Function.update it t b u) (Function.update ph t p u)
      = wcount m b p + ∑ u, wcount m (it u) (ph u) := by
  have hpt : ∀ u, wcount m (Function.update it t b u) (Function.update ph t p u)
      = Function.update (fun w => wcount m (it w) (ph w)) t (wcount m b p) u := by
    intro u
    by_cases h : u = t
    · subst h
      rw [Function.update_same, Function.update_same, Function.update_same]
    · rw [Function.update_noteq h, Function.update_noteq h, Function.update_noteq h]
  rw [Finset.sum_congr rfl (fun u _ => hpt u)]
  exact sum_update_comm (fun w => wcount m (it w) (ph w)) t (wcount m b p)

/-- The inductive invariant is preserved by every step of the interleaved
execution. -/
lemma cinv_step {n m : Nat} {s s1 : CState n} (hInv : CInv n m s) (h : CStep n s s1) :
    CInv n m s1 := by
  cases h with
  | checkFlag t hp hi =>
      rw [if_pos hInv.flag]
      refine ⟨hInv.flag, hInv.cs_ex, ?_, ?_, ?_, hInv.iters_le, ?_, ?_, ?_⟩
      · intro u
        by_cases hu : u = t
        · subst hu
          simp [Function.update_same]
        · simp only [Function.update_noteq hu]
          exact hInv.no_boot u
      · intro c hc u hu
        obtain ⟨hr, hin, hex⟩ := hInv.owner_excl c hc u hu
        have hut : u ≠ t := by
          intro e
          subst e
          simp [inSec, hp, Phase.inSection] at hin
        refine ⟨hr, ?_, ?_⟩
        · simpa [inSec, Function.update_noteq hut] using hin
        · intro w hw
          by_cases hwt : w = t
          · subst hwt
            simp [inSec, Function.update_same, Phase.inSection]
          · simpa [inSec, Function.update_noteq hwt] using hex w hw
      · intro c hc ho
        obtain ⟨hr, hno⟩ := hInv.free_none c hc ho
        refine ⟨hr, ?_⟩
        intro w
        by_cases hwt : w = t
        · subst hwt
          simp [inSec, Function.update_same, Phase.inSection]
        · simpa [inSec, Function.update_noteq hwt] using hno w
      · intro u hu
        by_cases hut : u = t
        · subst hut
          exact hi
        · simp only [Function.update_noteq hut] at hu
          exact hInv.iters_pos u hu
      · intro u v hv
        by_cases hut : u = t
        · subst hut
          simp only [Function.update_same] at hv
          cases hv
        · simp only [Function.update_noteq hut] at hv
          exact hInv.write_val u v hv
      · show s.counter = ∑ u, wcount m (s.iters u)
          (Function.update s.phase t Phase.acquiring u)
        have hpt : ∀ u, wcount m (s.iters u) (Function.update s.phase t Phase.acquiring u)
            = wcount m (s.iters u) (s.phase u) := by
          intro u
          by_cases hut : u = t
          · subst hut
            rw [Function.update_same, hp]
            simp [wcount]
          · rw [Function.update_noteq hut]
        rw [Finset.sum_congr rfl (fun u _ => hpt u)]
        exact hInv.ctr
  | doInit t hp =>
      exact absurd hp (hInv.no_boot t).1
  | setFlag t hp =>
      exact absurd hp (hInv.no_boot t).2
  | acquire t c hp hc ho =>
      cases ho with
      | inr ho =>
          have := (hInv.owner_excl c hc t ho).2.1
          simp [inSec, hp, Phase.inSection] at this
      | inl ho =>
          obtain ⟨hr0, hno⟩ := hInv.free_none c hc ho
          refine ⟨hInv.flag, ⟨_, rfl⟩, ?_, ?_, ?_, hInv.iters_le, ?_, ?_, ?_⟩
          · intro u
            by_cases hu : u = t
            · subst hu
              simp [Function.update_same]
            · simp only [Function.update_noteq hu]
              exact hInv.no_boot u
          · intro c1 hc1 u hu
            obtain rfl : CCS.mk (some t) (c.recur + 1) = c1 := Option.some.inj hc1
            obtain rfl : t = u := Option.some.inj hu
            refine ⟨by rw [hr0], ?_, ?_⟩
            · simp [inSec, Function.update_same, Phase.inSection]
            · intro w hw
              simpa [inSec, Function.update_noteq hw] using hno w
          · intro c1 hc1 hnone
            obtain rfl : CCS.mk (some t) (c.recur + 1) = c1 := Option.some.inj hc1
            cases hnone
          · intro u hu
            by_cases hut : u = t
            · subst hut
              refine hInv.iters_pos u ?_
              rw [hp]
              exact fun e => nomatch e
            · simp only [Function.update_noteq hut] at hu
              exact hInv.iters_pos u hu
          · intro u v hv
            by_cases hut : u = t
            · subst hut
              simp only [Function.update_same] at hv
              cases hv
            · simp only [Function.update_noteq hut] at hv
              exact hInv.write_val u v hv
          · show s.counter = ∑ u, wcount m (s.iters u)
              (Function.update s.phase t Phase.reading u)
            have hpt : ∀ u, wcount m (s.iters u) (Function.update s.phase t Phase.reading u)
                = wcount m (s.iters u) (s.phase u) := by
              intro u
              by_cases hut : u = t
              · subst hut
                rw [Function.update_same, hp]
                simp [wcount]
              · rw [Function.update_noteq hut]
            rw [Finset.sum_congr rfl (fun u _ => hpt u)]
            exact hInv.ctr
  | readCtr t hp =>
      have hins : inSec s t := by simp [inSec, hp, Phase.inSection]
      refine ⟨hInv.flag, hInv.cs_ex, ?_, ?_, ?_, hInv.iters_le, ?_, ?_, ?_⟩
      · intro u
        by_cases hu : u = t
        · subst hu
          simp [Function.update_same]
        · simp only [Function.update_noteq hu]
          exact hInv.no_boot u
      · intro c hc u hu
        obtain ⟨hr, hin, hex⟩ := hInv.owner_excl c hc u hu
        refine ⟨hr, ?_, ?_⟩
        · by_cases hut : u = t
          · subst hut
            simp [inSec, Function.update_same, Phase.inSection]
          · simpa [inSec, Function.update_noteq hut] using hin
        · intro w hw
          by_cases hwt : w = t
          · subst hwt
            exact absurd hins (hex w hw)
          · simpa [inSec, Function.update_noteq hwt] using hex w hw
      · intro c hc hnone
        obtain ⟨hr, hno⟩ := hInv.free_none c hc hnone
        exact absurd hins (hno t)
      · intro u hu
        by_cases hut : u = t
        · subst hut
          refine hInv.iters_pos u ?_
          rw [hp]
          exact fun e => nomatch e
        · simp only [Function.update_noteq hut] at hu
          exact hInv.iters_pos u hu
      · intro u v hv
        by_cases hut : u = t
        · subst hut
          simp only [Function.update_same] at hv
          cases hv
          rfl
        · simp only [Function.update_noteq hut] at hv
          exact hInv.write_val u v hv
      · show s.counter = ∑ u, wcount m (s.iters u)
          (Function.update s.phase t (Phase.writing s.counter) u)
        have hpt : ∀ u, wcount m (s.iters u)
            (Function.update s.phase t (Phase.writing s.counter) u)
            = wcount m (s.iters u) (s.phase u) := by
          intro u
          by_cases hut : u = t
          · subst hut
            rw [Function.update_same, hp]
            simp [wcount]
          · rw [Function.update_noteq hut]
        rw [Finset.sum_congr rfl (fun u _ => hpt u)]
        exact hInv.ctr
  | writeCtr t v hp =>
      have hins : inSec s t := by simp [inSec, hp, Phase.inSection]
      obtain ⟨c, hc⟩ := hInv.cs_ex
      have howner : c.owner = some t := owner_of_inSec hInv hc hins
      obtain ⟨hr, hin, hex⟩ := hInv.owner_excl c hc t howner
      refine ⟨hInv.flag, hInv.cs_ex, ?_, ?_, ?_, hInv.iters_le, ?_, ?_, ?_⟩
      · intro u
        by_cases hu : u = t
        · subst hu
          simp [Function.update_same]
        · simp only [Function.update_noteq hu]
          exact hInv.no_boot u
      · intro c1 hc1 u hu
        have : c1 = c := by
          rw [hc] at hc1
          exact (Option.some.inj hc1).symm
        subst this
        obtain rfl : t = u := Option.some.inj (howner.symm.trans hu)
        refine ⟨hr, ?_, ?_⟩
        · simp [inSec, Function.update_same, Phase.inSection]
        · intro w hw
          simpa [inSec, Function.update_noteq hw] using hex w hw
      · intro c1 hc1 hnone
        have : c1 = c := by
          rw [hc] at hc1
          exact (Option.some.inj hc1).symm
        subst this
        rw [howner] at hnone
        cases hnone
      · intro u hu
        by_cases hut : u = t
        · subst hut
          refine hInv.iters_pos u ?_
          rw [hp]
          exact fun e => nomatch e
        · simp only [Function.update_noteq hut] at hu
          exact hInv.iters_pos u hu
      · intro u w hw
        by_cases hut : u = t
        · subst hut
          simp only [Function.update_same] at hw
          cases hw
        · simp only [Function.update_noteq hut] at hw
          have husec : inSec s u := by simp [inSec, hw, Phase.inSection]
          exact absurd husec (hex u hut)
      · show v + 1 = ∑ u, wcount m (s.iters u)
          (Function.update s.phase t Phase.leaving u)
        have key := sum_wcount_step m s.iters s.phase t Phase.leaving
        have e1 : wcount m (s.iters t) (s.phase t) = m - s.iters t := by
          rw [hp]
          simp [wcount]
        have e2 : wcount m (s.iters t) Phase.leaving = (m - s.iters t) + 1 := by
          simp [wcount]
        have e3 : v = s.counter := hInv.write_val t v hp
        have e4 := hInv.ctr
        omega
  | doLeave t c hp hf hc =>
      have hins : inSec s t := by simp [inSec, hp, Phase.inSection]
      have howner : c.owner = some t := owner_of_inSec hInv hc hins
      obtain ⟨hr, hin, hex⟩ := hInv.owner_excl c hc t howner
      have hcs1 : (if c.recur ≤ 1 then CCS.mk (n := n) none 0
          else CCS.mk c.owner (c.recur - 1)) = CCS.mk none 0 := by
        rw [hr]
        simp
      rw [hcs1]
      refine ⟨hInv.flag, ⟨_, rfl⟩, ?_, ?_, ?_, ?_, ?_, ?_, ?_⟩
      · intro u
        by_cases hu : u = t
        · subst hu
          simp [Function.update_same]
        · simp only [Function.update_noteq hu]
          exact hInv.no_boot u
      · intro c1 hc1 u hu
        obtain rfl : CCS.mk none 0 = c1 := Option.some.inj hc1
        cases hu
      · intro c1 hc1 hnone
        obtain rfl : CCS.mk none 0 = c1 := Option.some.inj hc1
        refine ⟨rfl, ?_⟩
        intro w
        by_cases hwt : w = t
        · subst hwt
          simp [inSec, Function.update_same, Phase.inSection]
        · simpa [inSec, Function.update_noteq hwt] using hex w hwt
      · intro u
        by_cases hut : u = t
        · subst hut
          simp only [Function.update_same]
          have := hInv.iters_le u
          omega
        · simp only [Function.update_noteq hut]
          exact hInv.iters_le u
      · intro u hu
        by_cases hut : u = t
        · subst hut
          simp only [Function.update_same] at hu
          exact absurd rfl hu
        · simp only [Function.update_noteq hut] at hu
          simp only [Function.update_noteq hut]
          exact hInv.iters_pos u hu
      · intro u w hw
        by_cases hut : u = t
        · subst hut
          simp only [Function.update_same] at hw
          cases hw
        · simp only [Function.update_noteq hut] at hw
          exact hInv.write_val u w hw
      · show s.counter = ∑ u, wcount m (Function.update s.iters t (s.iters t - 1) u)
          (Function.update s.phase t Phase.ready u)
        have key := sum_wcount_step2 m s.iters s.phase t (s.iters t - 1) Phase.ready
        have e1 : wcount m (s.iters t) (s.phase t) = (m - s.iters t) + 1 := by
          rw [hp]
          simp [wcount]
        have e2 : wcount m (s.iters t - 1) Phase.ready = m - (s.iters t - 1) := by
          simp [wcount]
        have e3 := hInv.iters_le t
        have e4 : 1 ≤ s.iters t := by
          refine hInv.iters_pos t ?_
          rw [hp]
          exact fun e => nomatch e
        have e5 := hInv.ctr
        omega

/-- The invariant holds in the already-initialized starting state. -/
lemma cinv_init (n m : Nat) : CInv n m (initedCState n m) := by
  refine ⟨rfl, ⟨_, rfl⟩, ?_, ?_, ?_, ?_, ?_, ?_, ?_⟩
  · intro t
    exact ⟨(fun e => nomatch e), (fun e => nomatch e)⟩
  · intro c hc u hu
    obtain rfl : CCS.mk none 0 = c := Option.some.inj hc
    cases hu
  · intro c hc _
    obtain rfl : CCS.mk none 0 = c := Option.some.inj hc
    refine ⟨rfl, ?_⟩
    intro t
    simp [inSec, initedCState, Phase.inSection]
  · intro t
    exact le_refl m
  · intro t ht
    exact absurd rfl ht
  · intro t v hv
    cases hv
  · show (0 : Nat) = ∑ t : Fin n, wcount m m Phase.ready
    simp [wcount]

/-- The invariant holds in every state reachable from the already-initialized
starting state. -/
lemma cinv_reach {n m : Nat} {s : CState n} (h : CReach n (initedCState n m) s) :
    CInv n m s := by
  induction h with
  | refl => exact cinv_init n m
  | tail hab hbc ih => exact cinv_step ih hbc

/-- In an invariant state where no step is enabled, every context has
returned to its loop head with no iterations left. -/
lemma terminal_ready {n m : Nat} {s : CState n} (hInv : CInv n m s)
    (hterm : ∀ s1, ¬ CStep n s s1) (t : Fin n) :
    s.phase t = Phase.ready ∧ s.iters t = 0 := by
  cases hph : s.phase t with
  | ready =>
      refine ⟨rfl, ?_⟩
      by_contra h0
      exact hterm _ (CStep.checkFlag s t hph (by omega))
  | initing => exact absurd hph (hInv.no_boot t).1
  | flagging => exact absurd hph (hInv.no_boot t).2
  | acquiring =>
      obtain ⟨c, hc⟩ := hInv.cs_ex
      cases ho : c.owner with
      | none => exact absurd (CStep.acquire s t c hph hc (Or.inl ho)) (hterm _)
      | some u =>
          have hu := (hInv.owner_excl c hc u ho).2.1
          cases hpu : s.phase u with
          | reading => exact absurd (CStep.readCtr s u hpu) (hterm _)
          | writing v => exact absurd (CStep.writeCtr s u v hpu) (hterm _)
          | leaving => exact absurd (CStep.doLeave s u c hpu hInv.flag hc) (hterm _)
          | ready => simp [inSec, hpu, Phase.inSection] at hu
          | initing => simp [inSec, hpu, Phase.inSection] at hu
          | flagging => simp [inSec, hpu, Phase.inSection] at hu
          | acquiring => simp [inSec, hpu, Phase.inSection] at hu
  | reading => exact absurd (CStep.readCtr s t hph) (hterm _)
  | writing v => exact absurd (CStep.writeCtr s t v hph) (hterm _)
  | leaving =>
      obtain ⟨c, hc⟩ := hInv.cs_ex
      exact absurd (CStep.doLeave s t c hph hInv.flag hc) (hterm _)

end MicroTbx

namespace MicroTbx

/-! ## Claim theorems on the sequential model -/

/-- Claim C3: on this OS-backed port, Enter returns the fixed sentinel token
`0` from every starting state; the return value depends on nothing. -/
theorem C3_disable_returns_fixed_sentinel (s : PortState) :
    (TbxPortInterruptsDisable s).2 = 0 := by
  by_cases h : s.criticalSectionInitialized = true
  · rw [disable_of_init s h]
  · rw [disable_of_uninit s (by simpa using h)]

/-- Claim C2: from every program state in which no Enter has ever occurred
(a state produced by an Enter-free call history from process start), Leave
trips the fatal assertion (`none`) instead of silently succeeding, because
the initialization flag is still false. -/
theorem C2_leave_before_enter_asserts (tr : List Call) (s : PortState) (t : Nat)
    (hm : Call.enter ∉ tr) (h : exec initialPortState tr = some s) :
    TbxPortInterruptsRestore t s = none := by
  have hs : s = initialPortState := exec_no_enter tr initialPortState s rfl hm h
  subst hs
  rfl

/-- Witness for C2 at the empty call history and token `0`. -/
theorem C2_leave_before_enter_asserts_witness :
    Call.enter ∉ ([] : List Call) ∧
      exec initialPortState [] = some initialPortState ∧
      TbxPortInterruptsRestore 0 initialPortState = none :=
  ⟨by simp, rfl, C2_leave_before_enter_asserts [] initialPortState 0 (by simp) rfl⟩

/-- Claim C5: monotone initialization invariant: from any state with the flag
set and the backing object constructed, every successful call history leaves
the flag set and the object constructed (and performs no further
construction). -/
theorem C5_initialization_monotone (tr : List Call) (s s1 : PortState)
    (hf : s.criticalSectionInitialized = true) (hc : s.csConstructed = true)
    (h : exec s tr = some s1) :
    s1.criticalSectionInitialized = true ∧ s1.csConstructed = true ∧
      s1.csInitCalls = s.csInitCalls := by
  obtain ⟨h1, h2, h3⟩ := exec_preserves tr s s1 hf h
  exact ⟨h1, h2.trans hc, h3⟩

/-- Witness for C5: one further Enter from an initialized state. -/
theorem C5_initialization_monotone_witness :
    (PortState.mk true true 0 1).criticalSectionInitialized = true ∧
      (PortState.mk true true 0 1).csConstructed = true ∧
      exec (PortState.mk true true 0 1) [Call.enter] = some (PortState.mk true true 1 1) ∧
      ((PortState.mk true true 1 1).criticalSectionInitialized = true ∧
        (PortState.mk true true 1 1).csConstructed = true ∧
        (PortState.mk true true 1 1).csInitCalls = (PortState.mk true true 0 1).csInitCalls) :=
  ⟨rfl, rfl, by decide,
    C5_initialization_monotone [Call.enter] (PortState.mk true true 0 1)
      (PortState.mk true true 1 1) rfl rfl (by decide)⟩

/-- Claim C6: lazy one-time construction: along every successful sequential
call history from process start, `InitializeCriticalSection` has run exactly
once if the history contains an Enter and never otherwise — so it is invoked
at most once, exactly during the first Enter, and never by a Leave. -/
theorem C6_construction_at_most_once (tr : List Call) (s : PortState)
    (h : exec initialPortState tr = some s) :
    s.csInitCalls = if Call.enter ∈ tr then 1 else 0 := by
  cases tr with
  | nil =>
      simp [exec] at h
      simp [← h, initialPortState]
  | cons c rest =>
      cases c with
      | enter =>
          simp only [exec, stepCall, disable_of_uninit initialPortState rfl] at h
          have := exec_preserves rest _ s rfl h
          simp [this.2.2, initialPortState]
      | leave t =>
          rw [exec, stepCall, TbxPortInterruptsRestore] at h
          simp [initialPortState] at h

/-- Witness for C6 at the call history consisting of one Enter. -/
theorem C6_construction_at_most_once_witness :
    exec initialPortState [Call.enter] = some (PortState.mk true true 1 1) ∧
      (PortState.mk true true 1 1).csInitCalls =
        if Call.enter ∈ [Call.enter] then 1 else 0 :=
  ⟨by decide, C6_construction_at_most_once [Call.enter] (PortState.mk true true 1 1) (by decide)⟩

/-- Claim C7: once at least one Enter has completed, Leave never fails: the
assertion branch is not taken and the call reports no error. -/
theorem C7_leave_after_enter_never_asserts (tr : List Call) (s : PortState) (t : Nat)
    (hm : Call.enter ∈ tr) (h : exec initialPortState tr = some s) :
    (TbxPortInterruptsRestore t s).isSome = true := by
  have hf := exec_enter_flag tr s hm h
  simp [TbxPortInterruptsRestore, hf]

/-- Witness for C7 after a single Enter. -/
theorem C7_leave_after_enter_never_asserts_witness :
    Call.enter ∈ [Call.enter] ∧
      exec initialPortState [Call.enter] = some (PortState.mk true true 1 1) ∧
      (TbxPortInterruptsRestore 0 (PortState.mk true true 1 1)).isSome = true :=
  ⟨by simp, by decide,
    C7_leave_after_enter_never_asserts [Call.enter] (PortState.mk true true 1 1) 0
      (by simp) (by decide)⟩

/-- Claim C8: token noninterference: from every state, Leave behaves
identically for any two token values — the parameter is unused on this
port. -/
theorem C8_leave_ignores_token (s : PortState) (t1 t2 : Nat) :
    TbxPortInterruptsRestore t1 s = TbxPortInterruptsRestore t2 s := rfl

/-- Claim C9: frame property of Leave: when its precondition holds (flag
set), Leave only decrements the acquisition count; the initialization flag,
the constructedness of the backing object and the construction count are all
untouched. -/
theorem C9_leave_frame (s : PortState) (t : Nat)
    (hf : s.criticalSectionInitialized = true) :
    TbxPortInterruptsRestore t s = some { s with csLockCount := s.csLockCount - 1 } := by
  simp [TbxPortInterruptsRestore, leaveCriticalSection, hf]

/-- Witness for C9 at a concrete initialized state. -/
theorem C9_leave_frame_witness :
    (PortState.mk true true 2 1).criticalSectionInitialized = true ∧
      TbxPortInterruptsRestore 7 (PortState.mk true true 2 1) =
        some (PortState.mk true true 1 1) :=
  ⟨rfl, C9_leave_frame (PortState.mk true true 2 1) 7 rfl⟩

/-- Claim C4, counterexample to the claim as stated: from the uninitialized
process-start state, one Enter followed by one Leave does not restore the
exact pre-Enter state — the first Enter's one-time initialization (flag set,
object constructed) persists after the final Leave. -/
theorem C4_nesting_counterexample :
    leaveN (enterN initialPortState 1) 1 ≠ some initialPortState := by decide

/-- Claim C4 as amended: for every `n ≥ 1` and every starting state, `n`
consecutive Enters followed by exactly `n` Leaves succeed (no Leave trips the
assertion, and no inner Enter can block the context: Enter is a total
function of the single-context state because `EnterCriticalSection` is
recursive) and restore the pre-Enter acquisition state; the full pre-Enter
state is restored exactly when the starting state was already initialized,
while from an uninitialized start the only residue is the one-time
initialization itself. -/
theorem C4_nesting_amended (s : PortState) (n : Nat) (h : 1 ≤ n) :
    leaveN (enterN s n) n =
      some (if s.criticalSectionInitialized = true then s
            else PortState.mk true true 0 (s.csInitCalls + 1)) := by
  by_cases hf : s.criticalSectionInitialized = true
  · rw [if_pos hf, enterN_of_init n s hf,
        leaveN_of_init n { s with csLockCount := s.csLockCount + n } hf]
    simp
  · rw [if_neg hf]
    obtain ⟨m, rfl⟩ : ∃ m, n = m + 1 := ⟨n - 1, by omega⟩
    rw [enterN, disable_of_uninit s (by simpa using hf)]
    rw [enterN_of_init m (PortState.mk true true 1 (s.csInitCalls + 1)) rfl]
    rw [leaveN_of_init (m + 1) _ rfl]
    have h0 : 1 + m - (m + 1) = 0 := by omega
    simp [h0]

/-- Witness for the amended C4 at the process-start state with `n = 2`. -/
theorem C4_nesting_amended_witness :
    1 ≤ 2 ∧
      leaveN (enterN initialPortState 2) 2 =
        some (if initialPortState.criticalSectionInitialized = true then initialPortState
              else PortState.mk true true 0 (initialPortState.csInitCalls + 1)) :=
  ⟨by decide, C4_nesting_amended initialPortState 2 (by decide)⟩

/-- Claim C10: Enter has no error path: from every state — first call of the
process included — it never trips an assertion (its step always yields
`some`, the model of Enter having no assertion site at all), and afterwards
the initialization flag is true. -/
theorem C10_enter_never_fails (s : PortState) :
    (stepCall s Call.enter).isSome = true ∧
      (TbxPortInterruptsDisable s).1.criticalSectionInitialized = true :=
  ⟨rfl, disable_flag s⟩

/-- Claim C1, counterexample to the claim as stated: from the true process
start (flag false, backing object unconstructed), two contexts that both call
Enter CAN be simultaneously inside the protected section.  Both read the
initialization flag as false; the first completes construction and acquires;
the second then re-runs `InitializeCriticalSection`, which resets the held
critical section to the free state, and acquires it too.  (This is the lazy
first-use initialization race of `TbxPortInterruptsDisable`.) -/
theorem C1_mutual_exclusion_counterexample :
    ¬ (∀ s : CState 2, CReach 2 (startCState 2 1) s →
        ∀ t u : Fin 2, inSec s t → inSec s u → t = u) := by
  intro hclaim
  have hr :=
    Relation.ReflTransGen.head (CStep.checkFlag (startCState 2 1) 0 (by decide) (by decide))
      (Relation.ReflTransGen.head (CStep.checkFlag _ 1 (by decide) (by decide))
        (Relation.ReflTransGen.head (CStep.doInit _ 0 (by decide))
          (Relation.ReflTransGen.head (CStep.setFlag _ 0 (by decide))
            (Relation.ReflTransGen.head
              (CStep.acquire _ 0 (CCS.mk none 0) (by decide) (by decide) (Or.inl (by decide)))
              (Relation.ReflTransGen.head (CStep.doInit _ 1 (by decide))
                (Relation.ReflTransGen.head (CStep.setFlag _ 1 (by decide))
                  (Relation.ReflTransGen.head
                    (CStep.acquire _ 1 (CCS.mk none 0) (by decide) (by decide)
                      (Or.inl (by decide)))
                    Relation.ReflTransGen.refl)))))))
  have hbad := hclaim _ hr 0 1 (by decide) (by decide)
  exact absurd hbad (by decide)

/-- Claim C1 as amended: once the one-time initialization has completed
before the contexts run concurrently (flag true, backing object constructed
and free), mutual exclusion holds in every reachable state of the
fine-grained interleaving — no two contexts are ever simultaneously inside
the protected section — and every terminal state (no step enabled, i.e. all
n contexts have finished their m unprotected increments) has counter exactly
n * m: no lost updates. -/
theorem C1_mutual_exclusion_amended (n m : Nat) (s : CState n)
    (h : CReach n (initedCState n m) s) :
    (∀ t u : Fin n, inSec s t → inSec s u → t = u) ∧
      ((∀ s1, ¬ CStep n s s1) → s.counter = n * m) := by
  have hInv : CInv n m s := cinv_reach h
  constructor
  · intro t u ht hu
    obtain ⟨c, hc⟩ := hInv.cs_ex
    have e1 := owner_of_inSec hInv hc ht
    have e2 := owner_of_inSec hInv hc hu
    exact Option.some.inj (e1.symm.trans e2)
  · intro hterm
    rw [hInv.ctr]
    have hpt : ∀ t, wcount m (s.iters t) (s.phase t) = m := by
      intro t
      obtain ⟨e1, e2⟩ := terminal_ready hInv hterm t
      rw [e1, e2]
      simp [wcount]
    rw [Finset.sum_congr rfl (fun t _ => hpt t)]
    simp [Finset.sum_const, Finset.card_univ, Nat.smul_one_eq_cast]

/-- Witness for the amended C1 at the already-initialized starting state
itself. -/
theorem C1_mutual_exclusion_amended_witness :
    (∀ t u : Fin 1, inSec (initedCState 1 0) t → inSec (initedCState 1 0) u → t = u) ∧
      ((∀ s1, ¬ CStep 1 (initedCState 1 0) s1) → (initedCState 1 0).counter = 1 * 0) :=
  C1_mutual_exclusion_amended 1 0 (initedCState 1 0) Relation.ReflTransGen.refl

end MicroTbx
